import Mathlib

/-!
Verification of `build_support/repo_set.py` (mesa_ci).

Shallow embedding of the data model and operations of the repository-set /
branch-set / revision-pin-set / build-invocation core.  Python dicts are
modelled as association lists carrying the dict's iteration order; git
repository state is modelled as query functions on a `RepoState`; operations
that can raise are modelled with `Except`; wall-clock sleeps are modelled as
counters so retry/backoff behaviour is observable.
-/

namespace MesaCI

/-! ### Association-list primitives (Python dict viewed through its iteration order) -/

/-- Python `d[k]` lookup (as an `Option`): first binding of `k` wins. -/
def lookupStr (k : String) : List (String × String) → Option String
  | [] => none
  | kv :: rest => if kv.1 = k then some kv.2 else lookupStr k rest

/-- Python `d[k] = v`: replace the binding of `k` if present, else append it. -/
def setPair (k v : String) : List (String × String) → List (String × String)
  | [] => [(k, v)]
  | kv :: rest => if kv.1 = k then (k, v) :: rest else kv :: setPair k v rest

/-- Lexicographic order on character lists (the order Python's `sorted` uses
on the ASCII key strings), written as a directly computable Boolean. -/
def charListLt : List Char → List Char → Bool
  | [], [] => false
  | [], _ :: _ => true
  | _ :: _, [] => false
  | a :: as, b :: bs =>
    if a.val < b.val then true
    else if b.val < a.val then false
    else charListLt as bs

/-- Lexicographic order on strings. -/
def strLt (a b : String) : Bool := charListLt a.data b.data

/-- Insert one pair into a list sorted by key (helper for `sortPairs`). -/
def insertPair (x : String × String) : List (String × String) → List (String × String)
  | [] => [x]
  | y :: rest => if strLt x.1 y.1 then x :: y :: rest else y :: insertPair x rest

/-- Python `sorted(d.iteritems(), key=lambda x: x[0])`: sort bindings by key. -/
def sortPairs : List (String × String) → List (String × String)
  | [] => []
  | x :: rest => insertPair x (sortPairs rest)

/-! ### XML elements and `et.tostring` rendering -/

/-- An `xml.etree` element: tag, attribute dict (in its stored order), children. -/
inductive XmlElem where
  | mk (tag : String) (attrib : List (String × String)) (children : List XmlElem)

def XmlElem.tag : XmlElem → String
  | XmlElem.mk t _ _ => t

def XmlElem.attrib : XmlElem → List (String × String)
  | XmlElem.mk _ a _ => a

def XmlElem.children : XmlElem → List XmlElem
  | XmlElem.mk _ _ c => c

/-- `xml.etree` attribute-value escaping, one character at a time. -/
def escChar (c : Char) : List Char :=
  if c = '&' then ("&amp;").data
  else if c = '<' then ("&lt;").data
  else if c = '>' then ("&gt;").data
  else if c = '"' then ("&quot;").data
  else if c = '\n' then ("&#10;").data
  else if c = '\t' then ("&#09;").data
  else [c]

/-- `xml.etree` attribute-value escaping of a whole string. -/
def escAttrib (s : String) : String := String.mk (s.data.flatMap escChar)

/-- A character the escaper leaves alone. -/
def cleanChar (c : Char) : Bool :=
  !(c = '&' || c = '<' || c = '>' || c = '"' || c = '\n' || c = '\t')

/-- A string the escaper leaves alone (true of commit ids and project names). -/
def cleanStr (s : String) : Bool := s.data.all cleanChar

/-- Render an attribute dict as ` k1="v1" k2="v2" ...` in stored order. -/
def renderAttrs : List (String × String) → String
  | [] => ""
  | kv :: rest => " " ++ kv.1 ++ "=\"" ++ escAttrib kv.2 ++ "\"" ++ renderAttrs rest

mutual

/-- `et.tostring` of one element (no text nodes occur in this program). -/
def elemToString : XmlElem → String
  | XmlElem.mk t a [] => "<" ++ t ++ renderAttrs a ++ " />"
  | XmlElem.mk t a (c :: cs) =>
      "<" ++ t ++ renderAttrs a ++ ">" ++ elemToString c ++ elemsToString cs ++
        "</" ++ t ++ ">"

/-- `et.tostring` of a child list, concatenated in order. -/
def elemsToString : List XmlElem → String
  | [] => ""
  | c :: cs => elemToString c ++ elemsToString cs

end

/-! ### Git repository state -/

/-- The queries `needs_build`/`update_commits` make against the git repos:
`commit name ref` is `repos.repo(name).commit(ref).hexsha` (`none` models the
lookup raising), `short sha` is `repo.git.rev_parse(sha, short=True)`. -/
structure RepoState where
  commit : String → String → Option String
  short : String → String

/-- `_ProjectBranch.__init__(projectName)`: branch defaults to `origin/master`,
`sha` to `None` and `trigger` to `False`. -/
structure _ProjectBranch where
  branch : String
  name : String
  sha : Option String
  trigger : Bool
deriving DecidableEq

def _ProjectBranch.init (projectName : String) : _ProjectBranch :=
  { branch := "origin/master", name := projectName, sha := none, trigger := false }

/-! ### BranchSpecification -/

/-- One `<project>` child of a `<branch>` tag: its tag name and the optional
`trigger` / `branch` attributes. -/
structure BranchTagChild where
  tag : String
  triggerAttr : Option String
  branchAttr : Option String

/-- The trigger flag a spec child leaves behind: the override loop first sets
`trigger = True`, then replaces it with `attrib["trigger"] == "true"` when the
attribute is present. -/
def overrideTrigger (c : BranchTagChild) : Bool :=
  match c.triggerAttr with
  | some s => s == "true"
  | none => true

/-- Effect of one spec child on one pin: only the pin whose name equals the
child's tag is touched; its trigger is set per `overrideTrigger` and its branch
is replaced when a `branch` attribute is present. -/
def applyChild (c : BranchTagChild) (pb : _ProjectBranch) : _ProjectBranch :=
  if pb.name = c.tag then
    { pb with trigger := overrideTrigger c, branch := c.branchAttr.getD pb.branch }
  else pb

/-- One override pass of `BranchSpecification.__init__` over the whole pin dict. -/
def applyOverride (pbs : List _ProjectBranch) (c : BranchTagChild) : List _ProjectBranch :=
  pbs.map (applyChild c)

/-- `BranchSpecification.__init__`: every project of the repo set gets a default
pin on the repo set's branch for it (trigger off), the spec children override
trigger/branch for the projects they name, then each pin's `sha` is resolved
with `repo.commit(branch).hexsha`; pins whose resolution raises are deleted. -/
def BranchSpecification.init (projects : List (String × String))
    (overrides : List BranchTagChild)
    (resolve : String → String → Option String) : List _ProjectBranch :=
  (overrides.foldl applyOverride
      (projects.map (fun p => { _ProjectBranch.init p.1 with branch := p.2 }))).filterMap
    (fun pb =>
      match resolve pb.name pb.branch with
      | none => none
      | some sha => some { pb with sha := some sha })

/-- The net effect of the whole override loop on a single pin (the loop visits
the spec children in document order; later children override earlier ones). -/
def pinAfter (overrides : List BranchTagChild) (pb : _ProjectBranch) : _ProjectBranch :=
  overrides.foldl (fun pb c => applyChild c pb) pb

/-- The constructed pin for one project: default pin, overrides applied, sha
resolved; `none` when resolution raises and the pin is deleted. -/
def pinFor (overrides : List BranchTagChild) (resolve : String → String → Option String)
    (p : String × String) : Option _ProjectBranch :=
  match resolve (pinAfter overrides { _ProjectBranch.init p.1 with branch := p.2 }).name
      (pinAfter overrides { _ProjectBranch.init p.1 with branch := p.2 }).branch with
  | none => none
  | some sha =>
    some { pinAfter overrides { _ProjectBranch.init p.1 with branch := p.2 } with
           sha := some sha }

/-- Resolve every pin's sha against a repo state; the first failing `commit`
lookup raises (models the loop body of `update_commits`, which has no `try`). -/
def resolveAll (s : RepoState) : List _ProjectBranch → Except Unit (List _ProjectBranch)
  | [] => Except.ok []
  | pb :: rest =>
    match s.commit pb.name pb.branch with
    | none => Except.error ()
    | some h =>
      match resolveAll s rest with
      | Except.error e => Except.error e
      | Except.ok tail => Except.ok ({ pb with sha := some h } :: tail)

/-- `BranchSpecification.update_commits`: fetch the repo set (an arbitrary
state transition `fetchFn`), then re-resolve every pin's sha from the fetched
state. -/
def BranchSpecification.update_commits (fetchFn : RepoState → RepoState)
    (s : RepoState) (pbs : List _ProjectBranch) :
    Except Unit (RepoState × List _ProjectBranch) :=
  match resolveAll (fetchFn s) pbs with
  | Except.error e => Except.error e
  | Except.ok pbs' => Except.ok (fetchFn s, pbs')

/-- `BranchSpecification.needs_build`: walk the pins in iteration order; skip
non-trigger pins; for a trigger pin read the ref's current commit (a raising
lookup propagates, `Except.error`) and return `"<name>=<short-id>"` on the
first mismatch; `Except.ok none` models Python's `return False`. -/
def BranchSpecification.needs_build (s : RepoState) :
    List _ProjectBranch → Except Unit (Option String)
  | [] => Except.ok none
  | pb :: rest =>
    if pb.trigger = false then BranchSpecification.needs_build s rest
    else
      match s.commit pb.name pb.branch with
      | none => Except.error ()
      | some hexsha =>
        if pb.sha ≠ some hexsha then
          Except.ok (some (pb.name ++ "=" ++ s.short hexsha))
        else BranchSpecification.needs_build s rest

/-- `needs_build` with the loop's effect on the pin dict made explicit: the
body of the source loop contains no assignment to any pin field, so each pin
is passed through unchanged alongside the returned verdict. -/
def needs_buildSt (s : RepoState) :
    List _ProjectBranch → Except Unit (Option String) × List _ProjectBranch
  | [] => (Except.ok none, [])
  | pb :: rest =>
    if pb.trigger = false then
      let r := needs_buildSt s rest
      (r.1, pb :: r.2)
    else
      match s.commit pb.name pb.branch with
      | none => (Except.error (), pb :: rest)
      | some hexsha =>
        if pb.sha ≠ some hexsha then
          (Except.ok (some (pb.name ++ "=" ++ s.short hexsha)), pb :: rest)
        else
          let r := needs_buildSt s rest
          (r.1, pb :: r.2)

/-! ### RepoSet.branch_missing_revisions -/

/-- What `branch_missing_revisions` sees of one project's repo:
`headCommits` is the `iter_commits()` sequence of the checked-out branch
(`none` models the first `try` raising), `masterCommits` the sequence for the
tracked upstream ref (`none` models `GitCommandError` during that walk). -/
structure RepoCommits where
  headCommits : Option (List String)
  masterCommits : Option (List String)

/-- The inner walk: accumulate commits (`tmp_revs`) until one is contained in
the branch's commit list, then return the accumulator; an exhausted walk
discards the accumulator. -/
def walkToBranchPoint (branchCommits : List String) (tmp : List String) :
    List String → List String
  | [] => []
  | c :: rest =>
    if branchCommits.contains c then tmp
    else walkToBranchPoint branchCommits (tmp ++ [c]) rest

/-- One project's contribution: walk at most 8000 upstream commits against the
at most 1200 branch commits; a raising enumeration contributes nothing. -/
def projectContrib (r : RepoCommits) : List String :=
  match r.headCommits with
  | none => []
  | some bc =>
    match r.masterCommits with
    | none => []
    | some mc => walkToBranchPoint (bc.take 1200) [] (mc.take 8000)

/-- `RepoSet.branch_missing_revisions`: fold over the projects, appending each
project's contribution to `revs`. -/
def RepoSet.branch_missing_revisions (repos : List RepoCommits) : List String :=
  repos.foldl (fun revs r => revs ++ projectContrib r) []

/-! ### RevisionSpecification -/

/-- The fixed skip list of `to_cmd_line_param`. -/
def excludedProject (p : String) : Bool :=
  p == "mesa_jenkins" || p == "prerelease" || p == "gmock" || p == "gtest" ||
  p == "apitrace" || p == "sixonix" || p == "spirvheaders" || p == "spirvtools" ||
  p == "kc-cts"

/-- The `revs` token list built by the `to_cmd_line_param` loop: the revision
dict in its iteration order, excluded projects skipped, `project=rev` tokens. -/
def cmdTokens (revisions : List (String × String)) : List String :=
  (revisions.filter (fun pr => !excludedProject pr.1)).map
    (fun pr => pr.1 ++ "=" ++ pr.2)

/-- `RevisionSpecification.to_cmd_line_param`: iterate the revision dict in
its iteration order, skip the excluded projects, render `project=rev` tokens
joined by single spaces. -/
def RevisionSpecification.to_cmd_line_param (revisions : List (String × String)) : String :=
  String.intercalate (" ") (cmdTokens revisions)

/-- Reference rendering following the spec's words instead of the source:
identical except that the surviving tokens are sorted by project name. -/
def to_cmd_line_param_sorted (revisions : List (String × String)) : String :=
  String.intercalate (" ")
    ((sortPairs (revisions.filter (fun pr => !excludedProject pr.1))).map
      (fun pr => pr.1 ++ "=" ++ pr.2))

/-- `RevisionSpecification.to_elementtree`: a `RevSpec` element whose attribute
dict holds the revisions inserted in sorted key order. -/
def RevisionSpecification.to_elementtree (revisions : List (String × String)) : XmlElem :=
  XmlElem.mk ("RevSpec") (sortPairs revisions) []

/-- `RevisionSpecification.from_xml_file`, applied to the parsed root element:
take the root if it is tagged `RevSpec`, else its first `RevSpec` child (the
`assert elem is not None` failure is `none`); the revision dict is that
element's attribute dict. -/
def RevisionSpecification.from_xml_file (root : XmlElem) : Option (List (String × String)) :=
  if root.tag = "RevSpec" then some root.attrib
  else
    match root.children.find? (fun c => c.tag == "RevSpec") with
    | some e => some e.attrib
    | none => none

/-! ### ProjectInvoke -/

/-- Modelled from the spec: the `Options` class lives outside `src/` (only its
callers are here).  Per the spec it is an arbitrary key/value option bag whose
`to_elementtree` yields the `Options` element embedded in the ProjectInvoke
document; the bag is modelled as the element's attribute dict. -/
structure Options where
  opts : List (String × String)

/-- Modelled from the spec: serialization of the option bag as a tag-attribute
element tagged `Options`. -/
def Options.to_elementtree (o : Options) : XmlElem :=
  XmlElem.mk ("Options") o.opts []

/-- `ProjectInvoke`: project name, option bag, revision pin dict. -/
structure ProjectInvoke where
  project : String
  options : Options
  revision_spec : List (String × String)

/-- The document `ProjectInvoke.__str__` serializes: a `ProjectInvoke` element
with the `Project` attribute and the `RevSpec` and `Options` children. -/
def ProjectInvoke.toElem (i : ProjectInvoke) : XmlElem :=
  XmlElem.mk ("ProjectInvoke") [(("Project"), i.project)]
    [RevisionSpecification.to_elementtree i.revision_spec,
     Options.to_elementtree i.options]

/-- `ProjectInvoke.__str__`: `et.tostring` of the invocation document. -/
def ProjectInvoke.str (i : ProjectInvoke) : String := elemToString i.toElem

/-- `ProjectInvoke.hash(salt)`: `hashlib.md5(salt + str(self)).hexdigest()`,
with the md5 hex digest abstracted as a string function `digest`. -/
def ProjectInvoke.hash (digest : String → String) (salt : String)
    (i : ProjectInvoke) : String :=
  digest (salt ++ i.str)

/-! ### ProjectInvoke status store -/

/-- Outcome of one `open(info_file).read()` + `json.loads` attempt: a parsed
record, or a raising read/parse. -/
inductive ReadAttempt where
  | ok (d : List (String × String))
  | fail

/-- What one `_read_info` call sees of the shared filesystem: the two
`os.path.exists` probes (before and after the 0.2 s pause) and the outcome of
each successive open/parse attempt. -/
structure FsView where
  exists1 : Bool
  exists2 : Bool
  reads : Nat → ReadAttempt

/-- The `while attempt_number < 5` parse loop of `_read_info`.  Returns the
parsed record (empty after five failures) together with the number of attempts
made and the number of 5-second sleeps taken. -/
def readLoop (reads : Nat → ReadAttempt) : Nat → Nat → List (String × String) × Nat × Nat
  | _, 0 => ([], 0, 0)
  | i, fuel + 1 =>
    match reads i with
    | ReadAttempt.ok d => (d, 1, 0)
    | ReadAttempt.fail =>
      let r := readLoop reads (i + 1) fuel
      (r.1, r.2.1 + 1, r.2.2 + 1)

/-- `ProjectInvoke._read_info`: an absent file (on both existence probes)
yields the empty record with no parse attempt; otherwise up to five open/parse
attempts with a 5-second sleep after each failure, the record treated as empty
when all five fail. -/
def _read_info (v : FsView) : List (String × String) × Nat × Nat :=
  if !v.exists1 && !v.exists2 then ([], 0, 0)
  else readLoop v.reads 0 5

/-- The `for _ in range(0,10)` loop of `get_info`.  `env i` is the filesystem
as seen by iteration `i` (other processes may write in between).  Returns the
value found (or `none`), the number of `_read_info` calls made, and the number
of 1-second sleeps taken. -/
def getLoop (env : Nat → FsView) (key : String) (block : Bool) :
    Nat → Nat → Option String × Nat × Nat
  | _, 0 => (none, 0, 0)
  | i, fuel + 1 =>
    match lookupStr key (_read_info (env i)).1 with
    | some v => (some v, 1, 0)
    | none =>
      if block = false then (none, 1, 0)
      else
        let r := getLoop env key block (i + 1) fuel
        (r.1, r.2.1 + 1, r.2.2 + 1)

/-- `ProjectInvoke.get_info(key, block)`: up to ten read attempts; on a missing
key return `None` immediately when not blocking, else sleep one second and
retry, giving up (returning `None`) after the tenth read. -/
def get_info (env : Nat → FsView) (key : String) (block : Bool) :
    Option String × Nat × Nat :=
  getLoop env key block 0 10

/-- `ProjectInvoke.set_info(key, value)`: read the current record tolerantly,
merge in the new key, and rewrite the whole record; the returned dict is what
`_write_info` puts on disk. -/
def set_info (v : FsView) (key value : String) : List (String × String) :=
  setPair key value (_read_info v).1

/-- The filesystem as seen after `_write_info` has written record `d`. -/
def writtenView (d : List (String × String)) : FsView :=
  { exists1 := true, exists2 := true, reads := fun _ => ReadAttempt.ok d }

/-! ### RepoSet.fetch -/

/-- Outcome of one `remote.fetch()` attempt, matching the `except` arms of the
source: git command error, assertion error, alarm timeout, anything else. -/
inductive FetchOutcome where
  | success
  | gitCommandError (msg : String)
  | assertionError (msg : String)
  | timeout (msg : String)
  | otherError (msg : String)

/-- The `for _ in range(1, 4)` retry loop around one remote: every non-success
outcome is caught and the loop continues; returns whether a fetch succeeded
and how many attempts were made. -/
def fetchAttempts (outcomes : Nat → FetchOutcome) : Nat → Nat → Bool × Nat
  | _, 0 => (false, 0)
  | i, fuel + 1 =>
    match outcomes i with
    | FetchOutcome.success => (true, 1)
    | _ =>
      let r := fetchAttempts outcomes (i + 1) fuel
      (r.1, r.2 + 1)

/-- Fetch one remote: `range(1, 4)` performs exactly three iterations. -/
def fetchRemote (outcomes : Nat → FetchOutcome) : Bool × Nat :=
  fetchAttempts outcomes 1 3

/-- A cloned repository as `fetch` sees it: the attempt outcomes per remote. -/
structure RepoRemotes where
  remotes : List (Nat → FetchOutcome)

/-- `RepoSet.fetch`: walk the declared projects in buildspec order; the first
project missing from the cloned-repo dict raises `RepoNotCloned` (the error
carries its name); otherwise every remote of the repo is fetched through the
retry loop and a failed remote is logged and ignored, never aborting the
pass.  The result records, per project and remote, (success, attempts made). -/
def RepoSet.fetch (repos : String → Option RepoRemotes) :
    List String → Except String (List (String × List (Bool × Nat)))
  | [] => Except.ok []
  | name :: rest =>
    match repos name with
    | none => Except.error name
    | some r =>
      match RepoSet.fetch repos rest with
      | Except.error e => Except.error e
      | Except.ok tail => Except.ok ((name, r.remotes.map fetchRemote) :: tail)

/-! ## Helper lemmas -/

theorem lookup_setPair_self (k v : String) (d : List (String × String)) :
    lookupStr k (setPair k v d) = some v := by
  induction d with
  | nil => simp [setPair, lookupStr]
  | cons kv rest ih =>
    by_cases h : kv.1 = k
    · simp [setPair, h, lookupStr]
    · simp [setPair, h, lookupStr, ih]

theorem lookup_setPair_other (k k' v : String) (d : List (String × String))
    (h : k' ≠ k) :
    lookupStr k' (setPair k v d) = lookupStr k' d := by
  have hk' : ¬ k = k' := fun he => h he.symm
  induction d with
  | nil => simp [setPair, lookupStr, hk']
  | cons kv rest ih =>
    by_cases hk : kv.1 = k
    · subst hk
      simp [setPair, lookupStr, hk']
    · simp [setPair, hk, lookupStr, ih]

theorem getLoop_always_missing (env : Nat → FsView) (key : String)
    (h : ∀ i, lookupStr key (_read_info (env i)).1 = none) :
    ∀ fuel i, getLoop env key true i fuel = (none, fuel, fuel) := by
  intro fuel
  induction fuel with
  | zero => intro i; rfl
  | succ n ih => intro i; simp [getLoop, h i, ih (i + 1)]

theorem readLoop_always_fail (reads : Nat → ReadAttempt)
    (h : ∀ i, reads i = ReadAttempt.fail) :
    ∀ fuel i, readLoop reads i fuel = ([], fuel, fuel) := by
  intro fuel
  induction fuel with
  | zero => intro i; rfl
  | succ n ih => intro i; simp [readLoop, h i, ih (i + 1)]

theorem cmdTokens_append (l₁ l₂ : List (String × String)) :
    cmdTokens (l₁ ++ l₂) = cmdTokens l₁ ++ cmdTokens l₂ := by
  simp [cmdTokens, List.filter_append]

theorem needs_build_skip (s : RepoState) (l rest : List _ProjectBranch)
    (h : ∀ pb ∈ l, pb.trigger = false) :
    BranchSpecification.needs_build s (l ++ rest) =
      BranchSpecification.needs_build s rest := by
  induction l with
  | nil => rfl
  | cons pb t ih =>
    have hpb := h pb (by simp)
    have ht := ih (fun x hx => h x (by simp [hx]))
    simpa [BranchSpecification.needs_build, hpb] using ht

theorem needs_build_all_current (s : RepoState) (pbs : List _ProjectBranch)
    (h : ∀ pb ∈ pbs, pb.trigger = true →
      ∃ c, s.commit pb.name pb.branch = some c ∧ pb.sha = some c) :
    BranchSpecification.needs_build s pbs = Except.ok none := by
  induction pbs with
  | nil => rfl
  | cons pb rest ih =>
    have htail := ih (fun x hx hxt => h x (by simp [hx]) hxt)
    by_cases ht : pb.trigger = false
    · simpa [BranchSpecification.needs_build, ht] using htail
    · have ht' : pb.trigger = true := by
        revert ht; cases pb.trigger <;> simp
      obtain ⟨c, hc, hsha⟩ := h pb (by simp) ht'
      simpa [BranchSpecification.needs_build, ht, hc, hsha] using htail

theorem needs_build_after_resolve (s : RepoState) :
    ∀ pbs pbs', resolveAll s pbs = Except.ok pbs' →
      BranchSpecification.needs_build s pbs' = Except.ok none := by
  intro pbs
  induction pbs with
  | nil =>
    intro pbs' h
    have h' : Except.ok ([] : List _ProjectBranch) = Except.ok pbs' := h
    injection h' with h2
    rw [← h2]
    rfl
  | cons pb rest ih =>
    intro pbs' h
    unfold resolveAll at h
    cases hc : s.commit pb.name pb.branch with
    | none => rw [hc] at h; cases h
    | some hx =>
      rw [hc] at h
      cases hr : resolveAll s rest with
      | error e => rw [hr] at h; cases h
      | ok tail =>
        rw [hr] at h
        have hp : pbs' = { pb with sha := some hx } :: tail := by
          cases h; rfl
        subst hp
        have htail := ih tail hr
        by_cases ht : pb.trigger = false
        · simpa [BranchSpecification.needs_build, ht] using htail
        · simpa [BranchSpecification.needs_build, ht, hc] using htail

theorem walk_found (bc : List String) (b : String) (post : List String)
    (hb : bc.contains b = true) :
    ∀ pre tmp, (∀ c ∈ pre, bc.contains c = false) →
      walkToBranchPoint bc tmp (pre ++ b :: post) = tmp ++ pre := by
  have hb' : b ∈ bc := by simpa using hb
  intro pre
  induction pre with
  | nil => intro tmp h; simp [walkToBranchPoint, hb']
  | cons c pre ih =>
    intro tmp h
    have hc' : c ∉ bc := by simpa using h c (by simp)
    have ht := ih (tmp ++ [c]) (fun x hx => h x (by simp [hx]))
    simp [walkToBranchPoint, hc', ht]

theorem walk_no_common (bc : List String) :
    ∀ w tmp, (∀ c ∈ w, bc.contains c = false) → walkToBranchPoint bc tmp w = [] := by
  intro w
  induction w with
  | nil => intro tmp h; rfl
  | cons c rest ih =>
    intro tmp h
    have hc' : c ∉ bc := by simpa using h c (by simp)
    simp [walkToBranchPoint, hc', ih _ (fun x hx => h x (by simp [hx]))]

theorem insertPair_perm (x : String × String) :
    ∀ l, (insertPair x l).Perm (x :: l) := by
  intro l
  induction l with
  | nil => exact List.Perm.refl _
  | cons y rest ih =>
    by_cases h : strLt x.1 y.1 = true
    · simp [insertPair, h]
    · have h1 : insertPair x (y :: rest) = y :: insertPair x rest := by
        simp [insertPair, h]
      rw [h1]
      exact List.Perm.trans (List.Perm.cons y ih) (List.Perm.swap x y rest)

theorem sortPairs_perm : ∀ l, (sortPairs l).Perm l := by
  intro l
  induction l with
  | nil => exact List.Perm.refl _
  | cons x rest ih =>
    exact List.Perm.trans (insertPair_perm x (sortPairs rest)) (List.Perm.cons x ih)

theorem lookup_eq_of_perm (k : String) :
    ∀ {l₁ l₂ : List (String × String)}, l₁.Perm l₂ → (l₁.map Prod.fst).Nodup →
      lookupStr k l₁ = lookupStr k l₂ := by
  intro l₁ l₂ p
  induction p with
  | nil => intro _; rfl
  | cons x p ih =>
    intro hn
    rw [List.map_cons] at hn
    have hn' := hn.of_cons
    by_cases hx : x.1 = k
    · simp [lookupStr, hx]
    · simp [lookupStr, hx]
      exact ih hn'
  | swap x y t =>
    intro hn
    rw [List.map_cons, List.map_cons] at hn
    have h1 := List.nodup_cons.mp hn
    have hyx : y.1 ≠ x.1 := fun he => h1.1 (he ▸ List.mem_cons_self _ _)
    by_cases hx : x.1 = k <;> by_cases hy : y.1 = k
    · exact absurd (hy.trans hx.symm) hyx
    · simp [lookupStr, hx, hy]
    · simp [lookupStr, hx, hy]
    · simp [lookupStr, hx, hy]
  | trans p₁ p₂ ih₁ ih₂ =>
    intro hn
    have hn₂ := ((p₁.map Prod.fst).nodup_iff).mp hn
    exact (ih₁ hn).trans (ih₂ hn₂)

theorem applyChild_name (c : BranchTagChild) (pb : _ProjectBranch) :
    (applyChild c pb).name = pb.name := by
  unfold applyChild
  split <;> rfl

theorem pinAfter_name (ov : List BranchTagChild) :
    ∀ pb, (pinAfter ov pb).name = pb.name := by
  induction ov with
  | nil => intro pb; rfl
  | cons c rest ih =>
    intro pb
    calc (pinAfter (c :: rest) pb).name = (pinAfter rest (applyChild c pb)).name := rfl
      _ = (applyChild c pb).name := ih (applyChild c pb)
      _ = pb.name := applyChild_name c pb

theorem pinAfter_nomatch (ov : List BranchTagChild) :
    ∀ pb, (∀ c ∈ ov, c.tag ≠ pb.name) → pinAfter ov pb = pb := by
  induction ov with
  | nil => intro pb _; rfl
  | cons c rest ih =>
    intro pb h
    have hc : applyChild c pb = pb := by
      unfold applyChild
      rw [if_neg (fun he => (h c (by simp)) he.symm)]
    calc pinAfter (c :: rest) pb = pinAfter rest (applyChild c pb) := rfl
      _ = pinAfter rest pb := by rw [hc]
      _ = pb := ih pb (fun x hx => h x (by simp [hx]))

theorem pinAfter_append (l₁ l₂ : List BranchTagChild) (pb : _ProjectBranch) :
    pinAfter (l₁ ++ l₂) pb = pinAfter l₂ (pinAfter l₁ pb) := by
  simp [pinAfter, List.foldl_append]

theorem foldl_applyOverride (ov : List BranchTagChild) :
    ∀ pbs : List _ProjectBranch, ov.foldl applyOverride pbs = pbs.map (pinAfter ov) := by
  induction ov with
  | nil => intro pbs; exact (List.map_id pbs).symm
  | cons c rest ih =>
    intro pbs
    calc (c :: rest).foldl applyOverride pbs
        = rest.foldl applyOverride (applyOverride pbs c) := rfl
      _ = (pbs.map (applyChild c)).map (pinAfter rest) := by rw [ih]; rfl
      _ = pbs.map (pinAfter (c :: rest)) := by rw [List.map_map]; rfl

theorem escChar_clean (c : Char) (h : cleanChar c = true) : escChar c = [c] := by
  unfold escChar
  have h1 : ¬ c = '&' := by intro he; subst he; simp [cleanChar] at h
  have h2 : ¬ c = '<' := by intro he; subst he; simp [cleanChar] at h
  have h3 : ¬ c = '>' := by intro he; subst he; simp [cleanChar] at h
  have h4 : ¬ c = '"' := by intro he; subst he; simp [cleanChar] at h
  have h5 : ¬ c = '\n' := by intro he; subst he; simp [cleanChar] at h
  have h6 : ¬ c = '\t' := by intro he; subst he; simp [cleanChar] at h
  simp [h1, h2, h3, h4, h5, h6]

theorem flatMap_escChar_clean :
    ∀ l : List Char, l.all cleanChar = true → l.flatMap escChar = l := by
  intro l
  induction l with
  | nil => intro _; rfl
  | cons c rest ih =>
    intro h
    rw [List.all_cons, Bool.and_eq_true] at h
    rw [List.flatMap_cons, escChar_clean c h.1, ih h.2]
    rfl

theorem esc_clean (s : String) (h : cleanStr s = true) : escAttrib s = s := by
  unfold escAttrib
  rw [flatMap_escChar_clean s.data h]

theorem strDataInj {a b : String} (h : a.data = b.data) : a = b := by
  cases a; cases b; exact congrArg String.mk h

theorem strCancelLeft {a b c : String} (h : a ++ b = a ++ c) : b = c := by
  have hd := congrArg String.data h
  rw [String.data_append, String.data_append] at hd
  exact strDataInj (List.append_cancel_left hd)

theorem renderAttrs_append (l₁ l₂ : List (String × String)) :
    renderAttrs (l₁ ++ l₂) = renderAttrs l₁ ++ renderAttrs l₂ := by
  induction l₁ with
  | nil => rfl
  | cons kv rest ih => simp [renderAttrs, ih, String.append_assoc]

theorem str_ne_of_pin_change
    (p : String) (o : Options) (rv₁ rv₂ : List (String × String))
    (l t : List (String × String)) (pn r r' : String)
    (h₁ : sortPairs rv₁ = l ++ (pn, r) :: t)
    (h₂ : sortPairs rv₂ = l ++ (pn, r') :: t)
    (hr : cleanStr r = true) (hr' : cleanStr r' = true) (hne : r ≠ r') :
    ProjectInvoke.str { project := p, options := o, revision_spec := rv₁ } ≠
      ProjectInvoke.str { project := p, options := o, revision_spec := rv₂ } := by
  intro h
  apply hne
  have hd := congrArg String.data h
  simp only [ProjectInvoke.str, ProjectInvoke.toElem, elemToString, elemsToString,
    RevisionSpecification.to_elementtree, Options.to_elementtree,
    h₁, h₂, renderAttrs_append, renderAttrs, esc_clean r hr, esc_clean r' hr',
    String.data_append, List.append_assoc] at hd
  repeat replace hd := List.append_cancel_left hd
  exact strDataInj (List.append_cancel_right hd)

theorem str_ne_of_project_change
    (p₁ p₂ : String) (o : Options) (rv : List (String × String))
    (hp₁ : cleanStr p₁ = true) (hp₂ : cleanStr p₂ = true) (hne : p₁ ≠ p₂) :
    ProjectInvoke.str { project := p₁, options := o, revision_spec := rv } ≠
      ProjectInvoke.str { project := p₂, options := o, revision_spec := rv } := by
  intro h
  apply hne
  have hd := congrArg String.data h
  simp only [ProjectInvoke.str, ProjectInvoke.toElem, elemToString, elemsToString,
    RevisionSpecification.to_elementtree, Options.to_elementtree,
    renderAttrs, esc_clean p₁ hp₁, esc_clean p₂ hp₂,
    String.data_append, List.append_assoc] at hd
  repeat replace hd := List.append_cancel_left hd
  exact strDataInj (List.append_cancel_right hd)

theorem str_ne_of_option_change
    (p : String) (rv : List (String × String))
    (ol ot : List (String × String)) (k v v' : String)
    (hv : cleanStr v = true) (hv' : cleanStr v' = true) (hne : v ≠ v') :
    ProjectInvoke.str
        { project := p, options := { opts := ol ++ (k, v) :: ot }, revision_spec := rv } ≠
      ProjectInvoke.str
        { project := p, options := { opts := ol ++ (k, v') :: ot }, revision_spec := rv } := by
  intro h
  apply hne
  have hd := congrArg String.data h
  simp only [ProjectInvoke.str, ProjectInvoke.toElem, elemToString, elemsToString,
    RevisionSpecification.to_elementtree, Options.to_elementtree,
    renderAttrs_append, renderAttrs, esc_clean v hv, esc_clean v' hv',
    String.data_append, List.append_assoc] at hd
  repeat replace hd := List.append_cancel_left hd
  exact strDataInj (List.append_cancel_right hd)

theorem bmr_foldl (repos : List RepoCommits) :
    ∀ acc, repos.foldl (fun revs r => revs ++ projectContrib r) acc
      = acc ++ (repos.map projectContrib).flatten := by
  induction repos with
  | nil => intro acc; simp
  | cons r rest ih => intro acc; simp [List.foldl_cons, ih]

/-! ## Claim theorems -/

/-- C1: in a branch set whose pins ahead of `A` are not trigger-eligible,
with `A` trigger-eligible and the ref's current commit `c` differing from
`A`'s stored pin, `needs_build()` returns exactly `"A=<short-id of c>"`;
when no trigger-eligible pin differs from its ref's current commit it returns
the falsy sentinel (`Except.ok none` models Python's `False`); and after a
successful `update_commits()` re-resolved every pin, an immediately following
`needs_build()` returns the falsy sentinel. -/
theorem needs_build_trigger_spec (s s₂ : RepoState) (fetchFn : RepoState → RepoState)
    (l₁ l₂ pbs pbs₂ : List _ProjectBranch) (pbA : _ProjectBranch) (c : String) :
    ((∀ pb ∈ l₁, pb.trigger = false) → pbA.trigger = true →
      s.commit pbA.name pbA.branch = some c → pbA.sha ≠ some c →
      BranchSpecification.needs_build s (l₁ ++ pbA :: l₂) =
        Except.ok (some (pbA.name ++ "=" ++ s.short c))) ∧
    ((∀ pb ∈ pbs, pb.trigger = true →
        ∃ cc, s.commit pb.name pb.branch = some cc ∧ pb.sha = some cc) →
      BranchSpecification.needs_build s pbs = Except.ok none) ∧
    (BranchSpecification.update_commits fetchFn s pbs = Except.ok (s₂, pbs₂) →
      BranchSpecification.needs_build s₂ pbs₂ = Except.ok none) := by
  refine ⟨fun h₁ hA hc hsha => ?_, fun hall => needs_build_all_current s pbs hall,
    fun hupd => ?_⟩
  · rw [needs_build_skip s l₁ (pbA :: l₂) h₁]
    simp [BranchSpecification.needs_build, hA, hc, hsha]
  · unfold BranchSpecification.update_commits at hupd
    cases hr : resolveAll (fetchFn s) pbs with
    | error e => rw [hr] at hupd; cases hupd
    | ok pbs' =>
      rw [hr] at hupd
      have hs : s₂ = fetchFn s ∧ pbs₂ = pbs' := by
        cases hupd; exact ⟨rfl, rfl⟩
      rw [hs.1, hs.2]
      exact needs_build_after_resolve (fetchFn s) pbs pbs' hr

theorem needs_build_trigger_spec_witness :
    BranchSpecification.needs_build
        { commit := fun n _ => if n = ("A") then some ("newsha") else some ("bsha"),
          short := fun _ => ("new1234") }
        [{ branch := ("origin/master"), name := ("B"), sha := some ("bsha"),
           trigger := false },
         { branch := ("origin/master"), name := ("A"), sha := some ("oldsha"),
           trigger := true }] =
      Except.ok (some (("A") ++ "=" ++ ("new1234"))) ∧
    BranchSpecification.needs_build
        { commit := fun n _ => if n = ("A") then some ("newsha") else some ("bsha"),
          short := fun _ => ("new1234") }
        [{ branch := ("origin/master"), name := ("B"), sha := some ("bsha"),
           trigger := false },
         { branch := ("origin/master"), name := ("A"), sha := some ("newsha"),
           trigger := true }] =
      Except.ok none :=
  ⟨(needs_build_trigger_spec
      { commit := fun n _ => if n = ("A") then some ("newsha") else some ("bsha"),
        short := fun _ => ("new1234") }
      { commit := fun n _ => if n = ("A") then some ("newsha") else some ("bsha"),
        short := fun _ => ("new1234") }
      id
      [{ branch := ("origin/master"), name := ("B"), sha := some ("bsha"),
         trigger := false }]
      [] [] []
      { branch := ("origin/master"), name := ("A"), sha := some ("oldsha"),
        trigger := true }
      ("newsha")).1
    (by decide) rfl rfl (by decide),
   (needs_build_trigger_spec
      { commit := fun n _ => if n = ("A") then some ("newsha") else some ("bsha"),
        short := fun _ => ("new1234") }
      { commit := fun n _ => if n = ("A") then some ("newsha") else some ("bsha"),
        short := fun _ => ("new1234") }
      id []
      []
      [{ branch := ("origin/master"), name := ("B"), sha := some ("bsha"),
         trigger := false },
       { branch := ("origin/master"), name := ("A"), sha := some ("oldsha"),
         trigger := true }]
      [{ branch := ("origin/master"), name := ("B"), sha := some ("bsha"),
         trigger := false },
       { branch := ("origin/master"), name := ("A"), sha := some ("newsha"),
         trigger := true }]
      { branch := ("origin/master"), name := ("A"), sha := some ("oldsha"),
        trigger := true }
      ("newsha")).2.2
    rfl⟩

/-- C2: `branch_missing_revisions` appends, per project in order, the result
of walking the upstream ref (bounded to 8000 commits) against the tracked
branch's commit list (bounded to 1200): the commits accumulated strictly
before the first commit contained in the branch list — the branch point — are
the project's contribution and the walk stops there; a walk that finds no
common commit within the bound contributes nothing. -/
theorem branch_missing_revisions_spec (repos : List RepoCommits) (r : RepoCommits)
    (bc mc pre post : List String) (b : String) :
    RepoSet.branch_missing_revisions repos = (repos.map projectContrib).flatten ∧
    (r.headCommits = some bc → r.masterCommits = some mc →
      mc.take 8000 = pre ++ b :: post →
      (bc.take 1200).contains b = true →
      (∀ c ∈ pre, (bc.take 1200).contains c = false) →
      projectContrib r = pre) ∧
    (r.headCommits = some bc → r.masterCommits = some mc →
      (∀ c ∈ mc.take 8000, (bc.take 1200).contains c = false) →
      projectContrib r = []) := by
  refine ⟨?_, fun hh hm hsplit hb hpre => ?_, fun hh hm hnone => ?_⟩
  · simpa [RepoSet.branch_missing_revisions] using bmr_foldl repos []
  · simp only [projectContrib, hh, hm, hsplit]
    simpa using walk_found (bc.take 1200) b post hb pre [] hpre
  · simp only [projectContrib, hh, hm]
    exact walk_no_common (bc.take 1200) (mc.take 8000) [] hnone

theorem branch_missing_revisions_spec_witness :
    RepoSet.branch_missing_revisions
      [{ headCommits := some [("c1"), ("c2"), ("c3"), ("c4"), ("c5"), ("c6"), ("c7"),
           ("c8"), ("c9"), ("c10")],
         masterCommits := some [("c0"), ("c1"), ("c2")] }] = [("c0")] := by
  have hall := branch_missing_revisions_spec
    [{ headCommits := some [("c1"), ("c2"), ("c3"), ("c4"), ("c5"), ("c6"), ("c7"),
         ("c8"), ("c9"), ("c10")],
       masterCommits := some [("c0"), ("c1"), ("c2")] }]
    { headCommits := some [("c1"), ("c2"), ("c3"), ("c4"), ("c5"), ("c6"), ("c7"),
        ("c8"), ("c9"), ("c10")],
      masterCommits := some [("c0"), ("c1"), ("c2")] }
    [("c1"), ("c2"), ("c3"), ("c4"), ("c5"), ("c6"), ("c7"), ("c8"), ("c9"), ("c10")]
    [("c0"), ("c1"), ("c2")] [("c0")] [("c2")] ("c1")
  have hcontrib := hall.2.1 rfl rfl (by rfl) (by decide) (by decide)
  rw [hall.1]
  simp [hcontrib]

/-- C5: `set_info(key, value)` reads the current status record tolerantly,
merges in the new key, and rewrites the whole record; an immediately following
`get_info(key)` on the written record returns the value on the first read with
no retry, and every other key of the pre-existing record is preserved — for
any prior filesystem view, including one where the backing file does not exist
at the first read attempt. -/
theorem set_info_get_info_roundtrip (v : FsView) (key value k' : String) (b : Bool)
    (h : k' ≠ key) :
    get_info (fun _ => writtenView (set_info v key value)) key b = (some value, 1, 0) ∧
    lookupStr k' (set_info v key value) = lookupStr k' (_read_info v).1 := by
  constructor
  · simp [get_info, getLoop, _read_info, writtenView, readLoop, set_info,
      lookup_setPair_self]
  · exact lookup_setPair_other key k' value (_read_info v).1 h

theorem set_info_get_info_roundtrip_witness :
    get_info
      (fun _ => writtenView (set_info
        { exists1 := false, exists2 := false, reads := fun _ => ReadAttempt.fail }
        ("state") ("running")))
      ("state") true = (some ("running"), 1, 0) ∧
    lookupStr ("owner")
      (set_info { exists1 := false, exists2 := false, reads := fun _ => ReadAttempt.fail }
        ("state") ("running")) =
    lookupStr ("owner")
      (_read_info { exists1 := false, exists2 := false, reads := fun _ => ReadAttempt.fail }).1 :=
  set_info_get_info_roundtrip
    { exists1 := false, exists2 := false, reads := fun _ => ReadAttempt.fail }
    ("state") ("running") ("owner") true (by decide)

/-- C6: `get_info(key, block=False)` on a record missing the key returns `None`
after a single read with no retry; with `block=True` and the key never
appearing it makes exactly ten reads with ten 1-second pauses before giving
up; and `_read_info` on an existing but unreadable/unparseable file makes
exactly five attempts with five 5-second pauses and then treats the record as
empty. -/
theorem get_info_retry_spec (env : Nat → FsView) (v : FsView) (key : String) :
    (lookupStr key (_read_info (env 0)).1 = none →
      get_info env key false = (none, 1, 0)) ∧
    ((∀ i, lookupStr key (_read_info (env i)).1 = none) →
      get_info env key true = (none, 10, 10)) ∧
    (v.exists1 = true → (∀ i, v.reads i = ReadAttempt.fail) →
      _read_info v = ([], 5, 5)) := by
  refine ⟨fun h0 => ?_, fun hall => ?_, fun hex hfail => ?_⟩
  · simp [get_info, getLoop, h0]
  · exact getLoop_always_missing env key hall 10 0
  · simp [_read_info, hex, readLoop_always_fail v.reads hfail 5 0]

theorem get_info_retry_spec_witness :
    get_info (fun _ => writtenView [(("x"), ("y"))]) ("state") false = (none, 1, 0) ∧
    get_info (fun _ => writtenView [(("x"), ("y"))]) ("state") true = (none, 10, 10) ∧
    _read_info { exists1 := true, exists2 := true, reads := fun _ => ReadAttempt.fail }
      = ([], 5, 5) :=
  ⟨(get_info_retry_spec (fun _ => writtenView [(("x"), ("y"))])
      { exists1 := true, exists2 := true, reads := fun _ => ReadAttempt.fail }
      ("state")).1 rfl,
   (get_info_retry_spec (fun _ => writtenView [(("x"), ("y"))])
      { exists1 := true, exists2 := true, reads := fun _ => ReadAttempt.fail }
      ("state")).2.1 (fun _ => rfl),
   (get_info_retry_spec (fun _ => writtenView [(("x"), ("y"))])
      { exists1 := true, exists2 := true, reads := fun _ => ReadAttempt.fail }
      ("state")).2.2 rfl (fun _ => rfl)⟩

/-- C7 counterexample: `to_cmd_line_param` renders the dict in its iteration
order, not sorted by project name — on the pin set iterating as
`piglit, mesa` the rendering differs from the spec's sorted rendering. -/
theorem to_cmd_line_param_not_sorted_cex :
    RevisionSpecification.to_cmd_line_param [(("piglit"), ("p1")), (("mesa"), ("m1"))] ≠
      to_cmd_line_param_sorted [(("piglit"), ("p1")), (("mesa"), ("m1"))] := by
  have h1 : RevisionSpecification.to_cmd_line_param
      [(("piglit"), ("p1")), (("mesa"), ("m1"))] = ("piglit=p1 mesa=m1") := by rfl
  have h2 : to_cmd_line_param_sorted
      [(("piglit"), ("p1")), (("mesa"), ("m1"))] = ("mesa=m1 piglit=p1") := by rfl
  rw [h1, h2]
  decide

/-- C7 (amended): `to_cmd_line_param` renders a single-line string of
`project=revision` tokens in the mapping's iteration order (not sorted);
projects on the fixed exclusion list never contribute a token even when
present in the mapping, while a non-excluded entry contributes exactly its
token in place; the mapping itself is not consumed (the function is a pure
rendering of it). -/
theorem to_cmd_line_param_amended (l₁ l₂ : List (String × String)) (pn r : String) :
    (excludedProject pn = true →
      RevisionSpecification.to_cmd_line_param (l₁ ++ (pn, r) :: l₂) =
        RevisionSpecification.to_cmd_line_param (l₁ ++ l₂)) ∧
    (excludedProject pn = false →
      cmdTokens (l₁ ++ (pn, r) :: l₂) = cmdTokens l₁ ++ (pn ++ "=" ++ r) :: cmdTokens l₂) ∧
    RevisionSpecification.to_cmd_line_param (l₁ ++ (pn, r) :: l₂) =
      String.intercalate (" ") (cmdTokens (l₁ ++ (pn, r) :: l₂)) := by
  refine ⟨fun hex => ?_, fun hin => ?_, rfl⟩
  · simp [RevisionSpecification.to_cmd_line_param, cmdTokens_append, cmdTokens,
      List.filter_cons, hex]
  · simp [cmdTokens_append, cmdTokens, List.filter_cons, hin]

theorem to_cmd_line_param_amended_witness :
    RevisionSpecification.to_cmd_line_param
        [(("mesa"), ("abc123")), (("gtest"), ("zzz999"))] =
      RevisionSpecification.to_cmd_line_param [(("mesa"), ("abc123"))] ∧
    cmdTokens [(("mesa"), ("abc123")), (("piglit"), ("def456"))] =
      cmdTokens [(("mesa"), ("abc123"))] ++ ("piglit" ++ "=" ++ "def456") :: cmdTokens [] :=
  ⟨by
    have h := (to_cmd_line_param_amended [(("mesa"), ("abc123"))] [] ("gtest")
      ("zzz999")).1 (by decide)
    simpa using h,
   by
    have h := (to_cmd_line_param_amended [(("mesa"), ("abc123"))] [] ("piglit")
      ("def456")).2.1 (by decide)
    simpa using h⟩

/-- C8 (code bug): the source comment above the retry loop says 4 attempts but
`for _ in range(1, 4)` performs only three iterations — a remote failing every
attempt is tried exactly 3 times, not 4; the failure is ignored (the pass
returns normally), and a declared project that was never cloned raises the
distinguishable `RepoNotCloned` condition naming it. -/
theorem fetch_three_attempts :
    RepoSet.fetch
        (fun _ => some { remotes := [fun _ => FetchOutcome.gitCommandError ("refused")] })
        [("mesa")]
      = Except.ok [(("mesa"), [(false, 3)])] ∧
    RepoSet.fetch (fun _ => none) [("mesa")] = Except.error ("mesa") :=
  ⟨rfl, rfl⟩

/-- C10: `needs_build` is read-only — the loop body assigns to no pin field
and performs no fetch, so the pin list it leaves behind is exactly the input,
its verdict is the pure `needs_build` value, and running it a second time on
what the first run left behind returns the same answer. -/
theorem needs_build_frame (s : RepoState) (pbs : List _ProjectBranch) :
    (needs_buildSt s pbs).2 = pbs ∧
    (needs_buildSt s pbs).1 = BranchSpecification.needs_build s pbs ∧
    needs_buildSt s (needs_buildSt s pbs).2 = needs_buildSt s pbs := by
  have hmain : (needs_buildSt s pbs).2 = pbs ∧
      (needs_buildSt s pbs).1 = BranchSpecification.needs_build s pbs := by
    induction pbs with
    | nil => exact ⟨rfl, rfl⟩
    | cons pb rest ih =>
      by_cases ht : pb.trigger = false
      · simp [needs_buildSt, BranchSpecification.needs_build, ht, ih.1, ih.2]
      · cases hc : s.commit pb.name pb.branch with
        | none => simp [needs_buildSt, BranchSpecification.needs_build, ht, hc]
        | some hexsha =>
          by_cases hs : pb.sha ≠ some hexsha
          · simp [needs_buildSt, BranchSpecification.needs_build, ht, hc, hs]
          · simp [needs_buildSt, BranchSpecification.needs_build, ht, hc, hs, ih.1, ih.2]
  exact ⟨hmain.1, hmain.2, by rw [hmain.1]⟩

/-- C4: `hash(salt)` is the digest of `salt ++ str(self)` (the invocation's
canonical serialization); it is deterministic on identical inputs; and — with
the md5 digest idealized as injective — changing one pin's revision, the
project name, or one option value (values free of XML-escaped characters, as
commit ids and option values are) changes the fingerprint. -/
theorem project_invoke_hash_spec
    (digest : String → String) (salt : String) (i₁ i₂ : ProjectInvoke)
    (l t ol ot : List (String × String)) (pn r r' k v v' : String) :
    ProjectInvoke.hash digest salt i₁ = digest (salt ++ i₁.str) ∧
    (i₁ = i₂ →
      ProjectInvoke.hash digest salt i₁ = ProjectInvoke.hash digest salt i₂) ∧
    (Function.Injective digest → i₁.project = i₂.project → i₁.options = i₂.options →
      sortPairs i₁.revision_spec = l ++ (pn, r) :: t →
      sortPairs i₂.revision_spec = l ++ (pn, r') :: t →
      cleanStr r = true → cleanStr r' = true → r ≠ r' →
      ProjectInvoke.hash digest salt i₁ ≠ ProjectInvoke.hash digest salt i₂) ∧
    (Function.Injective digest → i₁.options = i₂.options →
      i₁.revision_spec = i₂.revision_spec →
      cleanStr i₁.project = true → cleanStr i₂.project = true →
      i₁.project ≠ i₂.project →
      ProjectInvoke.hash digest salt i₁ ≠ ProjectInvoke.hash digest salt i₂) ∧
    (Function.Injective digest → i₁.project = i₂.project →
      i₁.revision_spec = i₂.revision_spec →
      i₁.options.opts = ol ++ (k, v) :: ot → i₂.options.opts = ol ++ (k, v') :: ot →
      cleanStr v = true → cleanStr v' = true → v ≠ v' →
      ProjectInvoke.hash digest salt i₁ ≠ ProjectInvoke.hash digest salt i₂) := by
  obtain ⟨p₁, o₁, rv₁⟩ := i₁
  obtain ⟨p₂, o₂, rv₂⟩ := i₂
  obtain ⟨opts₁⟩ := o₁
  obtain ⟨opts₂⟩ := o₂
  refine ⟨rfl, fun he => by rw [he],
    fun hinj hp ho h₁ h₂ hr hr' hne hh => ?_,
    fun hinj ho hrv hp₁ hp₂ hne hh => ?_,
    fun hinj hp hrv h₁ h₂ hv hv' hne hh => ?_⟩
  · replace hp : p₁ = p₂ := hp
    have ho' : Options.mk opts₁ = Options.mk opts₂ := ho
    subst hp
    cases ho'
    exact str_ne_of_pin_change p₁ (Options.mk opts₁) rv₁ rv₂ l t pn r r'
      h₁ h₂ hr hr' hne (strCancelLeft (hinj hh))
  · have ho' : Options.mk opts₁ = Options.mk opts₂ := ho
    replace hrv : rv₁ = rv₂ := hrv
    cases ho'
    subst hrv
    exact str_ne_of_project_change p₁ p₂ (Options.mk opts₁) rv₁ hp₁ hp₂ hne
      (strCancelLeft (hinj hh))
  · replace hp : p₁ = p₂ := hp
    replace hrv : rv₁ = rv₂ := hrv
    replace h₁ : opts₁ = ol ++ (k, v) :: ot := h₁
    replace h₂ : opts₂ = ol ++ (k, v') :: ot := h₂
    subst hp
    subst hrv
    subst h₁
    subst h₂
    exact str_ne_of_option_change p₁ rv₁ ol ot k v v' hv hv' hne
      (strCancelLeft (hinj hh))

theorem project_invoke_hash_spec_witness :
    ProjectInvoke.hash id ("salt")
        { project := ("mesa"), options := { opts := [(("arch"), ("m64"))] },
          revision_spec := [(("mesa"), ("aaa"))] }
      = id (("salt") ++ ProjectInvoke.str
        { project := ("mesa"), options := { opts := [(("arch"), ("m64"))] },
          revision_spec := [(("mesa"), ("aaa"))] }) ∧
    ProjectInvoke.hash id ("salt")
        { project := ("mesa"), options := { opts := [(("arch"), ("m64"))] },
          revision_spec := [(("mesa"), ("aaa"))] }
      ≠ ProjectInvoke.hash id ("salt")
        { project := ("mesa"), options := { opts := [(("arch"), ("m64"))] },
          revision_spec := [(("mesa"), ("bbb"))] } :=
  ⟨(project_invoke_hash_spec id ("salt")
      { project := ("mesa"), options := { opts := [(("arch"), ("m64"))] },
        revision_spec := [(("mesa"), ("aaa"))] }
      { project := ("mesa"), options := { opts := [(("arch"), ("m64"))] },
        revision_spec := [(("mesa"), ("bbb"))] }
      [] [] [] [] ("mesa") ("aaa") ("bbb") ("k") ("v") ("v")).1,
   (project_invoke_hash_spec id ("salt")
      { project := ("mesa"), options := { opts := [(("arch"), ("m64"))] },
        revision_spec := [(("mesa"), ("aaa"))] }
      { project := ("mesa"), options := { opts := [(("arch"), ("m64"))] },
        revision_spec := [(("mesa"), ("bbb"))] }
      [] [] [] [] ("mesa") ("aaa") ("bbb") ("k") ("v") ("v")).2.2.1
     Function.injective_id rfl rfl (by rfl) (by rfl) (by decide) (by decide) (by decide)⟩

/-- C3: serializing a revision mapping to the `RevSpec` tag-attribute document
(attributes inserted in sorted key order) and reparsing it yields a pin set
whose mapping is identical to the original: parsing recovers the sorted
binding list, and lookup of every key through it agrees with the original
mapping (keys are unique, as in a Python dict). -/
theorem revision_spec_roundtrip (revs : List (String × String))
    (hnd : (revs.map Prod.fst).Nodup) (k : String) :
    RevisionSpecification.from_xml_file (RevisionSpecification.to_elementtree revs)
      = some (sortPairs revs) ∧
    lookupStr k (sortPairs revs) = lookupStr k revs := by
  constructor
  · simp [RevisionSpecification.from_xml_file, RevisionSpecification.to_elementtree,
      XmlElem.tag, XmlElem.attrib]
  · have hnd' : ((sortPairs revs).map Prod.fst).Nodup :=
      (((sortPairs_perm revs).map Prod.fst).nodup_iff).mpr hnd
    exact lookup_eq_of_perm k (sortPairs_perm revs) hnd'

theorem revision_spec_roundtrip_witness :
    RevisionSpecification.from_xml_file
        (RevisionSpecification.to_elementtree
          [(("mesa"), ("abc123")), (("piglit"), ("def456"))])
      = some (sortPairs [(("mesa"), ("abc123")), (("piglit"), ("def456"))]) ∧
    lookupStr ("mesa") (sortPairs [(("mesa"), ("abc123")), (("piglit"), ("def456"))]) =
      lookupStr ("mesa") [(("mesa"), ("abc123")), (("piglit"), ("def456"))] :=
  revision_spec_roundtrip [(("mesa"), ("abc123")), (("piglit"), ("def456"))]
    (by decide) ("mesa")

/-- C9 counterexample: a project known to the repository set but not named by
the group specification gets `trigger = False`, not the claimed
enabled-by-default triggering — with one project `A` and no spec children the
constructed pin's trigger flag is `false`. -/
theorem branch_default_trigger_cex :
    (BranchSpecification.init [(("A"), ("origin/master"))] []
        (fun _ _ => some ("c"))).map _ProjectBranch.trigger = [false] ∧
    (BranchSpecification.init [(("A"), ("origin/master"))] []
        (fun _ _ => some ("c"))).map _ProjectBranch.trigger ≠ [true] :=
  ⟨rfl, by decide⟩

/-- C9 (amended): construction gives every known project a pin on the repo
set's branch for it with triggering *disabled* by default; a project named by
a spec child gets triggering enabled unless the child carries a `trigger`
attribute other than `"true"` (the stable-branch override), and the child may
also override the branch ref; the constructed set is the per-project pipeline
`pinFor` (defaults, overrides in document order, sha resolution dropping
failures). -/
theorem branch_spec_init_amended (projects : List (String × String))
    (ov l₁ l₂ : List BranchTagChild) (resolve : String → String → Option String)
    (p : String × String) (c : BranchTagChild) (sha : String) :
    BranchSpecification.init projects ov resolve
      = projects.filterMap (pinFor ov resolve) ∧
    ((∀ ch ∈ ov, ch.tag ≠ p.1) → resolve p.1 p.2 = some sha →
      pinFor ov resolve p =
        some { branch := p.2, name := p.1, sha := some sha, trigger := false }) ∧
    (c.tag = p.1 → (∀ ch ∈ l₂, ch.tag ≠ p.1) →
      (pinAfter (l₁ ++ c :: l₂) { _ProjectBranch.init p.1 with branch := p.2 }).trigger
          = overrideTrigger c ∧
      (pinAfter (l₁ ++ c :: l₂) { _ProjectBranch.init p.1 with branch := p.2 }).branch
          = c.branchAttr.getD
              (pinAfter l₁ { _ProjectBranch.init p.1 with branch := p.2 }).branch) := by
  refine ⟨?_, fun hno hres => ?_, fun htag hl₂ => ?_⟩
  · unfold BranchSpecification.init
    rw [foldl_applyOverride, List.map_map, List.filterMap_map]
    rfl
  · have hname : ({ _ProjectBranch.init p.1 with branch := p.2 } : _ProjectBranch).name
        = p.1 := rfl
    have hpin : pinAfter ov { _ProjectBranch.init p.1 with branch := p.2 }
        = { _ProjectBranch.init p.1 with branch := p.2 } :=
      pinAfter_nomatch ov _ (by rw [hname]; exact hno)
    unfold pinFor
    rw [hpin]
    simp [_ProjectBranch.init, hres]
  · have hq : (pinAfter l₁ { _ProjectBranch.init p.1 with branch := p.2 }).name = p.1 :=
      pinAfter_name l₁ _
    have hstep : pinAfter (l₁ ++ c :: l₂) { _ProjectBranch.init p.1 with branch := p.2 }
        = pinAfter l₂ (applyChild c
            (pinAfter l₁ { _ProjectBranch.init p.1 with branch := p.2 })) := by
      rw [pinAfter_append]
      rfl
    have happ : applyChild c (pinAfter l₁ { _ProjectBranch.init p.1 with branch := p.2 })
        = { pinAfter l₁ { _ProjectBranch.init p.1 with branch := p.2 } with
            trigger := overrideTrigger c,
            branch := c.branchAttr.getD
              (pinAfter l₁ { _ProjectBranch.init p.1 with branch := p.2 }).branch } := by
      unfold applyChild
      rw [if_pos (by rw [hq, htag])]
    have hrest : pinAfter l₂ (applyChild c
          (pinAfter l₁ { _ProjectBranch.init p.1 with branch := p.2 }))
        = applyChild c (pinAfter l₁ { _ProjectBranch.init p.1 with branch := p.2 }) := by
      apply pinAfter_nomatch
      intro ch hch
      rw [applyChild_name, hq]
      exact hl₂ ch hch
    rw [hstep, hrest, happ]
    exact ⟨rfl, rfl⟩

theorem branch_spec_init_amended_witness :
    pinFor [{ tag := ("B"), triggerAttr := none, branchAttr := none }]
        (fun _ _ => some ("c")) (("A"), ("origin/master")) =
      some { branch := ("origin/master"), name := ("A"), sha := some ("c"),
             trigger := false } ∧
    (pinAfter [{ tag := ("A"), triggerAttr := some ("false"),
                 branchAttr := some ("origin/stable") }]
        { _ProjectBranch.init ("A") with branch := ("origin/master") }).trigger
      = overrideTrigger { tag := ("A"), triggerAttr := some ("false"),
                          branchAttr := some ("origin/stable") } ∧
    (pinAfter [{ tag := ("A"), triggerAttr := some ("false"),
                 branchAttr := some ("origin/stable") }]
        { _ProjectBranch.init ("A") with branch := ("origin/master") }).branch
      = Option.getD (some ("origin/stable"))
          (pinAfter [] { _ProjectBranch.init ("A") with branch := ("origin/master") }).branch :=
  ⟨(branch_spec_init_amended []
      [{ tag := ("B"), triggerAttr := none, branchAttr := none }] [] []
      (fun _ _ => some ("c")) (("A"), ("origin/master"))
      { tag := ("A"), triggerAttr := some ("false"), branchAttr := some ("origin/stable") }
      ("c")).2.1 (by decide) rfl,
   (branch_spec_init_amended []
      [{ tag := ("B"), triggerAttr := none, branchAttr := none }] [] []
      (fun _ _ => some ("c")) (("A"), ("origin/master"))
      { tag := ("A"), triggerAttr := some ("false"), branchAttr := some ("origin/stable") }
      ("c")).2.2 rfl (by decide)⟩

end MesaCI
